import Mathlib

/-!
Verification development for scripts/update_apps_tags.py.

The script queries git remotes for tags, keeps tags matching the regex
v\d+\.\d+\.\d+$ (applied with re.match, so anchored at both ends for
newline-free lines), parses them with packaging.version.Version, picks the
maximum (optionally restricted to a given major version, with fallback to
the whole candidate set), and writes apps.json mapping each repository URL
to the chosen tag or to the literal string main.

The embedding works on List Char as the string type.  Digits are modelled
as the ASCII digits 0-9 (the regex class \d and the packaging release
grammar [0-9]).  Line splitting models str.splitlines for LF separated
text, which is the format git ls-remote emits.  All definitions are
structural recursions so that closed terms evaluate inside the kernel.
-/

set_option autoImplicit false
set_option maxRecDepth 8192

/-- Python str.isspace characters used by str.strip, restricted to the
ASCII whitespace set (space, tab, LF, CR, VT, FF). -/
def pyWs (c : Char) : Bool :=
  c == ' ' || c == '\t' || c == '\n' || c == '\r' || c == Char.ofNat 11 || c == Char.ofNat 12

/-- Models Python str.strip with no argument: drop whitespace from both
ends. -/
def pyStrip (s : List Char) : List Char :=
  ((s.dropWhile pyWs).reverse.dropWhile pyWs).reverse

/-- Models Python str.split(sep) for a one character separator: the empty
string splits to one empty field, and every separator occurrence starts a
new field. -/
def pySplit (sep : Char) : List Char → List (List Char)
  | [] => [[]]
  | c :: rest =>
    let r := pySplit sep rest
    if c = sep then [] :: r else (c :: r.headD []) :: r.tail

/-- Models output.strip().splitlines() from get_latest_tag for LF
separated text: after stripping there is no leading or trailing newline,
so splitlines agrees with splitting on the LF character, and the empty
string yields no lines. -/
def pySplitlinesLF (s : List Char) : List (List Char) :=
  let t := pyStrip s
  if t.isEmpty then [] else pySplit '\n' t

/-- The literal string refs/tags/ removed by ref.replace("refs/tags/", ""). -/
def rtPat : List Char := "refs/tags/".toList

/-- Fuel driven scanner for ref.replace("refs/tags/", ""): Python replace
removes every non overlapping occurrence scanning left to right.  The fuel
argument only drives termination; stripRT supplies the length of the
input, which is enough fuel because every step consumes at least one
character. -/
def stripRTAux : Nat → List Char → List Char
  | 0, s => s
  | _ + 1, [] => []
  | fuel + 1, c :: rest =>
    if rtPat.isPrefixOf (c :: rest) then stripRTAux fuel ((c :: rest).drop rtPat.length)
    else c :: stripRTAux fuel rest

/-- Models ref.replace("refs/tags/", "") from get_latest_tag. -/
def stripRT (s : List Char) : List Char := stripRTAux s.length s

/-- The annotated tag dereference suffix, the three characters caret,
open brace, close brace. -/
def hatL : List Char := "^\x7b\x7d".toList

/-- Models the code
if tag.endswith("^\x7b\x7d"): tag = tag[:-3]
from get_latest_tag: strip one dereference suffix when present. -/
def stripHat (t : List Char) : List Char :=
  if hatL.isSuffixOf t then t.take (t.length - 3) else t

/-- Models tag.lstrip("v"): drop every leading v character. -/
def pyLstripV (t : List Char) : List Char := t.dropWhile (fun c => c == 'v')

/-- Matcher for the part of TAG_PATTERN after the leading v, that is
\d+\.\d+\.\d+$ on a newline-free string, with the digit class restricted
to ASCII 0-9: a maximal nonempty digit run, a dot, a second nonempty
digit run, a dot, and a final nonempty all digit run reaching the end of
the string.  Because a dot is not a digit the greedy reading coincides
with the regex semantics.  The full class of the Python str pattern also
matches non ASCII Unicode decimal digits; that faithful class is
pyRegexDigit and the faithful matcher is matchNDNPy below.  Inside
candidateOfRef the restriction is not observable, because the packaging
release grammar is ASCII only, so the code discards every non ASCII
digit tag at the parse step and the composite pattern-then-parse filter
agrees with the code on all refs; as a standalone model of the pattern
alone the restriction is visible, see the C9 counterexample. -/
def matchNDN (s : List Char) : Bool :=
  (!(s.takeWhile Char.isDigit).isEmpty) &&
  ((s.dropWhile Char.isDigit).headD ' ' == '.') &&
  (let s2 := (s.dropWhile Char.isDigit).tail
   (!(s2.takeWhile Char.isDigit).isEmpty) &&
   ((s2.dropWhile Char.isDigit).headD ' ' == '.') &&
   (let s3 := (s2.dropWhile Char.isDigit).tail
    (!s3.isEmpty) && s3.all Char.isDigit))

/-- Models TAG_PATTERN.match(tag) for TAG_PATTERN = v\d+\.\d+\.\d+$ with
the digit class restricted to ASCII (see matchNDN; the faithful matcher
is tagPatternMatchPy): re.match anchors at the start, the final dollar
anchors at the end for strings without a trailing newline, which is the
case for every line produced by splitlines. -/
def tagPatternMatch (s : List Char) : Bool :=
  (s.headD ' ' == 'v') && matchNDN s.tail

/-- Models int() on a string of ASCII digits. -/
def digitsToNat (l : List Char) : Nat :=
  l.foldl (fun a c => 10 * a + (c.toNat - 48)) 0

/-- Models packaging.version.Version(s) restricted to plain release
strings: a nonempty dot separated sequence of nonempty ASCII digit runs
parses to its list of numeric components, anything else is rejected.
Inside get_latest_tag the argument always has exactly this shape because
it already passed TAG_PATTERN, so the restriction of the model to the
release fragment of the packaging grammar is not observable there.  A
rejection corresponds to the InvalidVersion branch of the source, which
skips the tag. -/
def parseRelease (s : List Char) : Option (List Nat) :=
  let groups := pySplit '.' s
  if groups.all (fun g => (!g.isEmpty) && g.all Char.isDigit) then
    some (groups.map digitsToNat)
  else none

/-- The candidate a single ref contributes in the loop of get_latest_tag:
remove every refs/tags/ occurrence, strip one dereference suffix, and if
the result matches TAG_PATTERN parse the version after lstrip("v");
a parse failure (InvalidVersion) skips the tag. -/
def candidateOfRef (ref : List Char) : Option (List Nat) :=
  let tag := stripHat (stripRT ref)
  if tagPatternMatch tag then parseRelease (pyLstripV tag) else none

/-- Strict lexicographic order on lists of naturals, with a strict prefix
ordered below every extension: Python tuple comparison on int tuples. -/
def listLtNat : List Nat → List Nat → Bool
  | _, [] => false
  | [], _ :: _ => true
  | a :: as, b :: bs => if a < b then true else if b < a then false else listLtNat as bs

/-- Models the release normalization in the packaging comparison key:
trailing zero components are dropped before tuples are compared. -/
def stripZeros (l : List Nat) : List Nat :=
  (l.reverse.dropWhile (fun x => x == 0)).reverse

/-- Models the strict order on packaging release-only versions: compare
the zero stripped release tuples lexicographically. -/
def releaseLt (a b : List Nat) : Bool :=
  listLtNat (stripZeros a) (stripZeros b)

/-- Models Version.major: the first release component, 0 for an empty
release. -/
def pyMajor (t : List Nat) : Nat := t.headD 0

/-- Models the filter predicate (major is None or t.major == major) from
get_latest_tag. -/
def majorOk (major : Option Nat) (t : List Nat) : Bool :=
  match major with
  | none => true
  | some m => pyMajor t == m

/-- Models the scan performed by Python max over a nonempty iterable with
a seed: the current value is replaced exactly when the next item compares
strictly greater, so ties keep the earliest item. -/
def pyFoldMax : List Nat → List (List Nat) → List Nat
  | acc, [] => acc
  | acc, b :: rest => pyFoldMax (if releaseLt acc b then b else acc) rest

/-- Models Python max(list) on version lists: none for the empty list,
where Python max raises ValueError. -/
def pyMax1 : List (List Nat) → Option (List Nat)
  | [] => none
  | x :: xs => some (pyFoldMax x xs)

/-- Fuel driven decimal printer used to model str(int). -/
def natCharsAux : Nat → Nat → List Char
  | 0, _ => []
  | fuel + 1, n =>
    if n < 10 then [Nat.digitChar n]
    else natCharsAux fuel (n / 10) ++ [Nat.digitChar (n % 10)]

/-- Models str(int n) for a natural number. -/
def natChars (n : Nat) : List Char := natCharsAux (n + 1) n

/-- Models str(Version) for a release-only version: the numeric
components joined with dots.  This normalizes the textual form, for
example an 01 component prints as 1, exactly as packaging does. -/
def renderVersion : List Nat → List Char
  | [] => []
  | [n] => natChars n
  | n :: rest => natChars n ++ '.' :: renderVersion rest

/-- The two Python exceptions the script can raise and never catches: a
transport failure of the subprocess call (CalledProcessError) and
ValueError from tuple unpacking or from max on an empty sequence. -/
inductive PyErr where
  | transport
  | valueError
deriving DecidableEq

/-- Models the unpacking
oid, ref = line.split("\t")
which succeeds exactly when the line holds exactly one tab and otherwise
raises ValueError. -/
def lineRef (line : List Char) : Except PyErr (List Char) :=
  match pySplit '\t' line with
  | [_, ref] => Except.ok ref
  | _ => Except.error PyErr.valueError

/-- Sequential effectful map: processes the list in order and stops at
the first raised exception, as the Python for loops do. -/
def mapME {α β : Type} (f : α → Except PyErr β) : List α → Except PyErr (List β)
  | [] => Except.ok []
  | x :: xs =>
    match f x with
    | Except.error e => Except.error e
    | Except.ok y =>
      match mapME f xs with
      | Except.error e => Except.error e
      | Except.ok ys => Except.ok (y :: ys)

/-- The tag collection loop of get_latest_tag applied to the raw
ls-remote output: split into lines, take the ref of each line (raising
ValueError on a malformed line), and keep the parsed candidates in input
order. -/
def collectTags (output : List Char) : Except PyErr (List (List Nat)) :=
  match mapME lineRef (pySplitlinesLF output) with
  | Except.error e => Except.error e
  | Except.ok refs => Except.ok (refs.filterMap candidateOfRef)

/-- Models get_latest_tag with the remote listing output passed in as a
value: the subprocess call that produces it is modelled at the call site.
Returns none when no tag qualifies, otherwise the rendered maximum of the
candidates restricted by the advisory major filter. -/
def get_latest_tag (output : List Char) (major : Option Nat) :
    Except PyErr (Option (List Char)) :=
  match collectTags output with
  | Except.error e => Except.error e
  | Except.ok tags =>
    if tags = [] then Except.ok none
    else
      let m1 := tags.filter (majorOk major)
      let m2 := if m1 = [] then tags else m1
      match pyMax1 m2 with
      | some latest => Except.ok (some ('v' :: renderVersion latest))
      | none => Except.error PyErr.valueError

/-- One entry of apps.json: the dict literal with keys git_url and branch
built in main. -/
structure AppEntry where
  git_url : List Char
  branch : List Char
deriving DecidableEq

/-- The fallback branch string. -/
def mainChars : List Char := "main".toList

/-- Models the expression (tag or "main") on an Optional string: Python
falsiness treats both None and the empty string as absent. -/
def pyOr (t : Option (List Char)) (d : List Char) : List Char :=
  match t with
  | none => d
  | some s => if s.isEmpty then d else s

/-- The hard coded repository list REPOS of the script, in source order. -/
def REPOS : List (List Char) :=
  [ "https://github.com/frappe/erpnext".toList
  , "https://github.com/frappe/hrms".toList
  , "https://github.com/frappe/crm".toList
  , "https://github.com/frappe/helpdesk".toList
  , "https://github.com/frappe/drive".toList
  , "https://github.com/frappe/insights".toList
  , "https://github.com/frappe/builder".toList
  , "https://github.com/frappe/lms".toList ]

/-- Models the major extraction in main: re.search((\d+), env) takes the
first maximal digit run of FRAPPE_VERSION and int-parses it; no digits
means no filter. -/
def extractMajor : List Char → Option Nat
  | [] => none
  | c :: rest =>
    if c.isDigit then some (digitsToNat (c :: rest.takeWhile Char.isDigit))
    else extractMajor rest

/-- One iteration of the loop in main for a single repository: run the
remote listing (the lr parameter stands for the subprocess call and can
raise), resolve the tag, and build the entry with the literal main as the
fallback branch. -/
def step (lr : List Char → Except PyErr (List Char)) (major : Option Nat)
    (repo : List Char) : Except PyErr AppEntry :=
  match lr repo with
  | Except.error e => Except.error e
  | Except.ok out =>
    match get_latest_tag out major with
    | Except.error e => Except.error e
    | Except.ok tag => Except.ok ⟨repo, pyOr tag mainChars⟩

/-- Four hex digit group of a \uXXXX escape, lowercase as json.dumps
prints it. -/
def hex4 (n : Nat) : List Char :=
  [ Nat.digitChar (n / 4096 % 16), Nat.digitChar (n / 256 % 16)
  , Nat.digitChar (n / 16 % 16), Nat.digitChar (n % 16) ]

/-- Models the default (ensure_ascii) string escaping of json.dumps for a
single character: the two character escapes, printable ASCII verbatim,
and \uXXXX (with a surrogate pair above the BMP) for everything else. -/
def jsonEscapeChar (c : Char) : List Char :=
  if c = '"' then ['\\', '"']
  else if c = '\\' then ['\\', '\\']
  else if c = '\n' then ['\\', 'n']
  else if c = '\t' then ['\\', 't']
  else if c = '\r' then ['\\', 'r']
  else if c = Char.ofNat 8 then ['\\', 'b']
  else if c = Char.ofNat 12 then ['\\', 'f']
  else if 32 ≤ c.toNat && c.toNat ≤ 126 then [c]
  else if c.toNat ≤ 65535 then '\\' :: 'u' :: hex4 c.toNat
  else '\\' :: 'u' :: hex4 (55296 + (c.toNat - 65536) / 1024)
       ++ '\\' :: 'u' :: hex4 (56320 + (c.toNat - 65536) % 1024)

/-- Models the json.dumps rendering of one string value. -/
def jsonStringLit (s : List Char) : List Char :=
  '"' :: (s.map jsonEscapeChar).flatten ++ ['"']

/-- Join a list of strings with a separator, as str.join does. -/
def joinSep (sep : List Char) : List (List Char) → List Char
  | [] => []
  | [x] => x
  | x :: rest => x ++ sep ++ joinSep sep rest

/-- Models the json.dumps(obj, indent=2) text of one apps.json entry:
a two space indented object with the keys git_url and branch in insertion
order, values separated from keys by a colon and a space. -/
def renderEntryJson (e : AppEntry) : List Char :=
  "  \x7b\n    \"git_url\": ".toList ++ jsonStringLit e.git_url
    ++ ",\n    \"branch\": ".toList ++ jsonStringLit e.branch
    ++ "\n  \x7d".toList

/-- Models json.dumps(apps, indent=2): the empty list prints as a bare
bracket pair, otherwise the entries are joined with a comma and newline
inside the bracket lines. -/
def renderAppsJson : List AppEntry → List Char
  | [] => "[]".toList
  | es => "[\n".toList ++ joinSep (",\n".toList) (es.map renderEntryJson) ++ "\n]".toList

/-- Models main: extract the optional major filter from the environment
string, resolve every repository in order (any uncaught exception aborts
the whole run before anything is written), and only then produce the
full apps.json text, the dumps output plus a trailing newline.  The ok
value carries the written file content; an error value means the file was
not touched. -/
def runMain (lr : List Char → Except PyErr (List Char)) (env : List Char) :
    Except PyErr (List AppEntry × List Char) :=
  match mapME (step lr (extractMajor env)) REPOS with
  | Except.error e => Except.error e
  | Except.ok apps => Except.ok (apps, renderAppsJson apps ++ ['\n'])

/-- The candidate criterion exactly as claim C4 words it: strip the
refs/tags/ prefix (one leading occurrence), then one dereference suffix,
then require the anchored pattern.  The source instead removes every
occurrence of refs/tags/ anywhere in the ref; the two disagree, see the
C4 counterexample. -/
def claimC4Criterion (ref : List Char) : Bool :=
  let t1 := if rtPat.isPrefixOf ref then ref.drop rtPat.length else ref
  tagPatternMatch (stripHat t1)

/-- The listing used by the worked examples of the spec: the three tags
v1.2.3, v1.10.0 and v2.0.0. -/
def exListing : List Char :=
  "h1\trefs/tags/v1.2.3\nh2\trefs/tags/v1.10.0\nh3\trefs/tags/v2.0.0".toList

/-- The parsed candidate list of exListing. -/
def exTags : List (List Nat) := [[1, 2, 3], [1, 10, 0], [2, 0, 0]]

/-! ### Order lemmas for the version comparison -/

theorem listLtNat_irrefl : ∀ l : List Nat, listLtNat l l = false
  | [] => rfl
  | a :: as => by simp [listLtNat, listLtNat_irrefl as]

theorem listLtNat_trans : ∀ a b c : List Nat,
    listLtNat a b = true → listLtNat b c = true → listLtNat a c = true := by
  intro a
  induction a with
  | nil =>
    intro b c _ h2
    cases c with
    | nil => cases b <;> simp [listLtNat] at h2
    | cons z zs => rfl
  | cons x xs ih =>
    intro b c h1 h2
    cases b with
    | nil => simp [listLtNat] at h1
    | cons y ys =>
      cases c with
      | nil => simp [listLtNat] at h2
      | cons z zs =>
        simp only [listLtNat] at h1 h2 ⊢
        by_cases hxy : x < y
        · by_cases hyz : y < z
          · simp [Nat.lt_trans hxy hyz]
          · by_cases hzy : z < y
            · simp [hyz, hzy] at h2
            · have hyz' : y = z := by omega
              subst hyz'
              simp [hxy]
        · by_cases hyx : y < x
          · simp [hxy, hyx] at h1
          · have hxy' : x = y := by omega
            subst hxy'
            by_cases hxz : x < z
            · simp [hxz]
            · by_cases hzx : z < x
              · simp [hxz, hzx] at h2
              · have hxz' : x = z := by omega
                subst hxz'
                simp only [hxz, Nat.lt_irrefl, if_false] at h1 h2 ⊢
                exact ih ys zs h1 h2

theorem listLtNat_eq_of_not : ∀ a b : List Nat,
    listLtNat a b = false → listLtNat b a = false → a = b := by
  intro a
  induction a with
  | nil =>
    intro b h1 _
    cases b with
    | nil => rfl
    | cons z zs => simp [listLtNat] at h1
  | cons x xs ih =>
    intro b h1 h2
    cases b with
    | nil => simp [listLtNat] at h2
    | cons y ys =>
      simp only [listLtNat] at h1 h2
      by_cases hxy : x < y
      · simp [hxy] at h1
      · by_cases hyx : y < x
        · simp [hxy, hyx] at h2
        · have hxy' : x = y := by omega
          subst hxy'
          simp only [Nat.lt_irrefl, if_false] at h1 h2
          rw [ih ys h1 h2]

theorem listLtNat_false_trans {a b c : List Nat}
    (h1 : listLtNat a b = false) (h2 : listLtNat b c = false) :
    listLtNat a c = false := by
  cases hac : listLtNat a c with
  | false => rfl
  | true =>
    cases hba : listLtNat b a with
    | false =>
      have := listLtNat_eq_of_not a b h1 hba
      subst this
      rw [hac] at h2
      exact h2
    | true =>
      have := listLtNat_trans b a c hba hac
      rw [this] at h2
      exact h2

theorem releaseLt_irrefl (a : List Nat) : releaseLt a a = false :=
  listLtNat_irrefl _

theorem releaseLt_trans {a b c : List Nat}
    (h1 : releaseLt a b = true) (h2 : releaseLt b c = true) : releaseLt a c = true :=
  listLtNat_trans _ _ _ h1 h2

theorem releaseLt_false_trans {a b c : List Nat}
    (h1 : releaseLt a b = false) (h2 : releaseLt b c = false) : releaseLt a c = false :=
  listLtNat_false_trans h1 h2

/-! ### The scan of Python max returns a greatest element -/

theorem pyFoldMax_not_lt_acc :
    ∀ (l : List (List Nat)) (acc : List Nat), releaseLt (pyFoldMax acc l) acc = false := by
  intro l
  induction l with
  | nil => intro acc; simpa [pyFoldMax] using releaseLt_irrefl acc
  | cons b rest ih =>
    intro acc
    simp only [pyFoldMax]
    by_cases h : releaseLt acc b = true
    · simp only [h, if_true]
      cases hres : releaseLt (pyFoldMax b rest) acc with
      | false => rfl
      | true =>
        have := releaseLt_trans hres h
        rw [ih b] at this
        exact this.symm
    · simp only [h, if_false]
      exact ih acc

theorem pyFoldMax_not_lt_mem :
    ∀ (l : List (List Nat)) (acc t : List Nat), t ∈ l →
      releaseLt (pyFoldMax acc l) t = false := by
  intro l
  induction l with
  | nil => intro acc t ht; cases ht
  | cons b rest ih =>
    intro acc t ht
    simp only [pyFoldMax]
    rcases List.mem_cons.mp ht with hb | hrest
    · subst hb
      by_cases h : releaseLt acc t = true
      · simp only [h, if_true]
        exact pyFoldMax_not_lt_acc rest t
      · simp only [h, if_false]
        have hacc := pyFoldMax_not_lt_acc rest acc
        exact releaseLt_false_trans hacc (by simpa using h)
    · by_cases h : releaseLt acc b = true
      · simp only [h, if_true]
        exact ih b t hrest
      · simp only [h, if_false]
        exact ih acc t hrest

theorem pyFoldMax_mem_or :
    ∀ (l : List (List Nat)) (acc : List Nat),
      pyFoldMax acc l = acc ∨ pyFoldMax acc l ∈ l := by
  intro l
  induction l with
  | nil => intro acc; exact Or.inl rfl
  | cons b rest ih =>
    intro acc
    simp only [pyFoldMax]
    by_cases h : releaseLt acc b = true
    · simp only [h, if_true]
      rcases ih b with hacc | hmem
      · exact Or.inr (by rw [hacc]; exact List.mem_cons_self b rest)
      · exact Or.inr (List.mem_cons_of_mem b hmem)
    · simp only [h, if_false]
      rcases ih acc with hacc | hmem
      · exact Or.inl hacc
      · exact Or.inr (List.mem_cons_of_mem b hmem)

/-- The result of Python max over a nonempty candidate pool: it is one of
the candidates and no candidate compares strictly greater. -/
def resolverMax (pool : List (List Nat)) (v : List Nat) : Prop :=
  pyMax1 pool = some v ∧ v ∈ pool ∧ ∀ t ∈ pool, releaseLt v t = false

theorem pyMax1_spec (pool : List (List Nat)) (h : pool ≠ []) :
    ∃ v, resolverMax pool v := by
  rcases List.exists_cons_of_ne_nil h with ⟨x, xs, rfl⟩
  refine ⟨pyFoldMax x xs, rfl, ?_, ?_⟩
  · rcases pyFoldMax_mem_or xs x with hx | hmem
    · rw [hx]; exact List.mem_cons_self x xs
    · exact List.mem_cons_of_mem x hmem
  · intro t ht
    rcases List.mem_cons.mp ht with hx | hmem
    · subst hx; exact pyFoldMax_not_lt_acc xs t
    · exact pyFoldMax_not_lt_mem xs x t hmem

/-! ### Splitting lemmas -/

theorem pySplit_ne_nil (sep : Char) : ∀ s : List Char, pySplit sep s ≠ [] := by
  intro s
  cases s with
  | nil => simp [pySplit]
  | cons c rest =>
    simp only [pySplit]
    by_cases h : c = sep <;> simp [h]

theorem length_pySplit (sep : Char) :
    ∀ s : List Char, (pySplit sep s).length = s.count sep + 1 := by
  intro s
  induction s with
  | nil => simp [pySplit]
  | cons c rest ih =>
    simp only [pySplit]
    by_cases h : c = sep
    · subst h
      simp [List.count_cons, ih]
    · have hne := pySplit_ne_nil sep rest
      have hlen : (pySplit sep rest).length ≠ 0 := by
        intro h0
        exact hne (List.length_eq_zero.mp h0)
      simp only [h, if_false, List.length_cons, List.length_tail]
      rw [List.count_cons_of_ne (Ne.symm h)]
      omega

theorem pySplit_append_sep (sep : Char) :
    ∀ xs ys : List Char, sep ∉ xs →
      pySplit sep (xs ++ sep :: ys) = xs :: pySplit sep ys := by
  intro xs
  induction xs with
  | nil => intro ys _; simp [pySplit]
  | cons x xs ih =>
    intro ys hmem
    have hx : x ≠ sep := fun h => hmem (h ▸ List.mem_cons_self x xs)
    have hxs : sep ∉ xs := fun h => hmem (List.mem_cons_of_mem x h)
    simp only [List.cons_append, pySplit, List.append_eq]
    rw [if_neg hx, ih ys hxs]
    rfl

theorem pySplit_no_sep (sep : Char) :
    ∀ xs : List Char, sep ∉ xs → pySplit sep xs = [xs] := by
  intro xs
  induction xs with
  | nil => intro _; rfl
  | cons x xs ih =>
    intro hmem
    have hx : x ≠ sep := fun h => hmem (h ▸ List.mem_cons_self x xs)
    have hxs : sep ∉ xs := fun h => hmem (List.mem_cons_of_mem x h)
    simp [pySplit, hx, ih hxs]

/-! ### Line unpacking and loop errors -/

theorem lineRef_error_val {line : List Char} {e : PyErr}
    (h : lineRef line = Except.error e) : e = PyErr.valueError := by
  unfold lineRef at h
  rcases hs : pySplit '\t' line with _ | ⟨a, _ | ⟨b, _ | ⟨c, rest⟩⟩⟩ <;>
    rw [hs] at h <;> simp at h
  · exact h.symm
  · exact h.symm
  · exact h.symm

theorem lineRef_bad_tabs {line : List Char} (h : line.count '\t' ≠ 1) :
    lineRef line = Except.error PyErr.valueError := by
  have hlen : (pySplit '\t' line).length ≠ 2 := by
    rw [length_pySplit]
    omega
  unfold lineRef
  rcases hs : pySplit '\t' line with _ | ⟨a, _ | ⟨b, _ | ⟨c, rest⟩⟩⟩
  · exact absurd hs (pySplit_ne_nil '\t' line)
  · rfl
  · rw [hs] at hlen; simp at hlen
  · rfl

theorem mapME_lineRef_error :
    ∀ (lines : List (List Char)) (line : List Char), line ∈ lines →
      lineRef line = Except.error PyErr.valueError →
      mapME lineRef lines = Except.error PyErr.valueError := by
  intro lines
  induction lines with
  | nil => intro line h _; cases h
  | cons a as ih =>
    intro line hmem hbad
    rcases List.mem_cons.mp hmem with ha | has
    · subst ha
      simp only [mapME, hbad]
    · simp only [mapME]
      cases hfa : lineRef a with
      | error e =>
        rw [lineRef_error_val hfa]
      | ok y =>
        rw [ih line has hbad]

theorem mapME_error_of_mem {α β : Type} (f : α → Except PyErr β) :
    ∀ (l : List α) (x : α), x ∈ l → (∃ e0, f x = Except.error e0) →
      ∃ e, mapME f l = Except.error e := by
  intro l
  induction l with
  | nil => intro x h _; cases h
  | cons a as ih =>
    intro x hmem hbad
    rcases List.mem_cons.mp hmem with ha | has
    · subst ha
      rcases hbad with ⟨e0, he0⟩
      exact ⟨e0, by simp only [mapME, he0]⟩
    · simp only [mapME]
      cases hfa : f a with
      | error e => exact ⟨e, rfl⟩
      | ok y =>
        rcases ih x has hbad with ⟨e, he⟩
        exact ⟨e, by rw [he]⟩

theorem mapME_step_git_url (lr : List Char → Except PyErr (List Char))
    (major : Option Nat) :
    ∀ (repos : List (List Char)) (apps : List AppEntry),
      mapME (step lr major) repos = Except.ok apps →
      apps.map AppEntry.git_url = repos := by
  intro repos
  induction repos with
  | nil =>
    intro apps h
    simp only [mapME] at h
    cases h
    rfl
  | cons r rs ih =>
    intro apps h
    simp only [mapME] at h
    cases hstep : step lr major r with
    | error e => rw [hstep] at h; cases h
    | ok entry =>
      rw [hstep] at h
      cases hrest : mapME (step lr major) rs with
      | error e => rw [hrest] at h; cases h
      | ok ys =>
        rw [hrest] at h
        cases h
        have hurl : entry.git_url = r := by
          unfold step at hstep
          cases hlr : lr r with
          | error e =>
            rw [hlr] at hstep
            injection hstep
          | ok out =>
            rw [hlr] at hstep
            simp only [] at hstep
            cases hg : get_latest_tag out major with
            | error e =>
              rw [hg] at hstep
              injection hstep
            | ok tag =>
              rw [hg] at hstep
              injection hstep with h2
              rw [← h2]
        simp [hurl, ih ys hrest]

/-! ### Pattern matched tags always parse -/

theorem matchNDN_structure {s : List Char} (h : matchNDN s = true) :
    ∃ d1 d2 d3 : List Char, s = d1 ++ '.' :: (d2 ++ '.' :: d3) ∧
      d1 ≠ [] ∧ d2 ≠ [] ∧ d3 ≠ [] ∧
      d1.all Char.isDigit = true ∧ d2.all Char.isDigit = true ∧
      d3.all Char.isDigit = true := by
  unfold matchNDN at h
  simp only [Bool.and_eq_true, beq_iff_eq, Bool.not_eq_true', List.isEmpty_eq_false] at h
  obtain ⟨⟨h1, h2⟩, ⟨h3, h4⟩, h5, h6⟩ := h
  set R := s.dropWhile Char.isDigit with hR
  set t2 := R.tail with ht2
  set R2 := t2.dropWhile Char.isDigit with hR2
  set t3 := R2.tail with ht3
  have e1 : R = '.' :: t2 := by
    cases hc : R with
    | nil => rw [hc] at h2; exact absurd h2 (by decide)
    | cons a t => rw [hc] at h2; simp only [List.headD_cons] at h2; rw [h2, ht2, hc]; rfl
  have e2 : R2 = '.' :: t3 := by
    cases hc : R2 with
    | nil => rw [hc] at h4; exact absurd h4 (by decide)
    | cons a t => rw [hc] at h4; simp only [List.headD_cons] at h4; rw [h4, ht3, hc]; rfl
  refine ⟨s.takeWhile Char.isDigit, t2.takeWhile Char.isDigit, t3,
    ?_, h1, h3, h5, ?_, ?_, h6⟩
  · have k2 : t2 = t2.takeWhile Char.isDigit ++ '.' :: t3 := by
      conv_lhs => rw [← List.takeWhile_append_dropWhile (p := Char.isDigit) (l := t2)]
      rw [← hR2, e2]
    calc s = s.takeWhile Char.isDigit ++ R := by
            rw [hR]; exact (List.takeWhile_append_dropWhile Char.isDigit s).symm
      _ = s.takeWhile Char.isDigit ++ '.' :: t2 := by rw [e1]
      _ = s.takeWhile Char.isDigit ++ '.' :: (t2.takeWhile Char.isDigit ++ '.' :: t3) := by
            rw [← k2]
  · exact List.all_eq_true.mpr fun x hx => List.mem_takeWhile_imp hx
  · exact List.all_eq_true.mpr fun x hx => List.mem_takeWhile_imp hx

theorem dot_not_mem_of_digits {d : List Char} (h : d.all Char.isDigit = true) :
    '.' ∉ d := by
  intro hmem
  have := List.all_eq_true.mp h '.' hmem
  exact absurd this (by decide)

theorem parseRelease_some_of_pattern {t : List Char} (h : tagPatternMatch t = true) :
    (parseRelease (pyLstripV t)).isSome = true := by
  unfold tagPatternMatch at h
  simp only [Bool.and_eq_true, beq_iff_eq] at h
  obtain ⟨hv, hm⟩ := h
  have htc : t = 'v' :: t.tail := by
    cases t with
    | nil => exact absurd hv (by decide)
    | cons a t' => simp only [List.headD_cons] at hv; rw [hv]; rfl
  obtain ⟨d1, d2, d3, hs, h1, h2, h3, ha1, ha2, ha3⟩ := matchNDN_structure hm
  have hd1 : ∃ c d1', d1 = c :: d1' ∧ Char.isDigit c = true := by
    cases hc : d1 with
    | nil => exact absurd hc h1
    | cons c d1' =>
      refine ⟨c, d1', rfl, ?_⟩
      have := List.all_eq_true.mp ha1 c (by rw [hc]; exact List.mem_cons_self c d1')
      exact this
  obtain ⟨c, d1', hcd, hcdig⟩ := hd1
  have hlstrip : pyLstripV t = d1 ++ '.' :: (d2 ++ '.' :: d3) := by
    rw [htc]
    unfold pyLstripV
    rw [List.dropWhile_cons]
    have : (('v' : Char) == 'v') = true := by decide
    rw [this]
    simp only [if_true]
    rw [hs, hcd]
    rw [List.cons_append, List.dropWhile_cons]
    have hcnv : ((c == 'v') : Bool) = false := by
      cases hb : ((c == 'v') : Bool) with
      | false => rfl
      | true =>
        have : c = 'v' := by simpa using hb
        rw [this] at hcdig
        exact absurd hcdig (by decide)
    rw [hcnv]
    simp
  rw [hlstrip]
  unfold parseRelease
  rw [pySplit_append_sep '.' d1 _ (dot_not_mem_of_digits ha1),
      pySplit_append_sep '.' d2 _ (dot_not_mem_of_digits ha2),
      pySplit_no_sep '.' d3 (dot_not_mem_of_digits ha3)]
  have hne1 : d1.isEmpty = false := by
    cases d1 with
    | nil => exact absurd rfl h1
    | cons _ _ => rfl
  have hne2 : d2.isEmpty = false := by
    cases d2 with
    | nil => exact absurd rfl h2
    | cons _ _ => rfl
  have hne3 : d3.isEmpty = false := by
    cases d3 with
    | nil => exact absurd rfl h3
    | cons _ _ => rfl
  simp [List.all_cons, hne1, hne2, hne3, ha1, ha2, ha3]

/-! ### The replace-all scan: occurrences never cross into the suffix -/

theorem isPreOf_iff {l1 l2 : List Char} : l1.isPrefixOf l2 = true ↔ l1 <+: l2 :=
  List.isPrefixOf_iff_prefix

theorem rtPat_isPrefixOf_append_hat (xs : List Char) :
    rtPat.isPrefixOf (xs ++ hatL) = rtPat.isPrefixOf xs := by
  cases hb : rtPat.isPrefixOf xs with
  | true =>
    have h : rtPat <+: xs := isPreOf_iff.mp hb
    exact isPreOf_iff.mpr (h.trans (List.prefix_append xs hatL))
  | false =>
    cases hb2 : rtPat.isPrefixOf (xs ++ hatL) with
    | false => rfl
    | true =>
      exfalso
      have h : rtPat <+: xs ++ hatL := isPreOf_iff.mp hb2
      by_cases hlen : rtPat.length ≤ xs.length
      · have hxs : xs <+: xs ++ hatL := List.prefix_append xs hatL
        have hpre := List.prefix_of_prefix_length_le h hxs hlen
        have hb' := isPreOf_iff.mpr hpre
        rw [hb'] at hb
        cases hb
      · have hxs : xs <+: xs ++ hatL := List.prefix_append xs hatL
        have hxp : xs <+: rtPat :=
          List.prefix_of_prefix_length_le hxs h (by omega)
        obtain ⟨t, ht⟩ := hxp
        have htpre : xs ++ t <+: xs ++ hatL := by rw [ht]; exact h
        have ht2 : t <+: hatL := (List.prefix_append_right_inj xs).mp htpre
        have htne : t ≠ [] := by
          intro h0
          rw [h0, List.append_nil] at ht
          have hlx := congrArg List.length ht
          rw [show rtPat.length = 10 from rfl] at hlx hlen
          omega
        obtain ⟨c, t', rfl⟩ := List.exists_cons_of_ne_nil htne
        have hc : c = '^' := by
          obtain ⟨r, hr⟩ := ht2
          rw [List.cons_append,
            show hatL = '^' :: (Char.ofNat 123 :: [Char.ofNat 125]) from rfl] at hr
          injection hr
        subst hc
        have hmem : '^' ∈ rtPat :=
          ht ▸ List.mem_append.mpr (Or.inr (List.mem_cons_self _ _))
        exact absurd hmem (by decide)

theorem stripRTAux_fuel :
    ∀ (f1 f2 : Nat) (s : List Char), s.length ≤ f1 → s.length ≤ f2 →
      stripRTAux f1 s = stripRTAux f2 s := by
  intro f1
  induction f1 with
  | zero =>
    intro f2 s h1 _
    have hs : s = [] := List.length_eq_zero.mp (Nat.le_zero.mp h1)
    subst hs
    cases f2 <;> rfl
  | succ f1 ih =>
    intro f2 s h1 h2
    cases s with
    | nil => cases f2 <;> rfl
    | cons c rest =>
      cases f2 with
      | zero =>
        exfalso
        rw [List.length_cons] at h2
        omega
      | succ f2' =>
        rw [List.length_cons] at h1 h2
        simp only [stripRTAux]
        cases hp : rtPat.isPrefixOf (c :: rest) with
        | true =>
          rw [if_pos rfl, if_pos rfl]
          have h10 : rtPat.length ≤ (c :: rest).length :=
            (isPreOf_iff.mp hp).length_le
          have hrt : rtPat.length = 10 := rfl
          rw [List.length_cons, hrt] at h10
          apply ih
          · rw [List.length_drop, List.length_cons, hrt]; omega
          · rw [List.length_drop, List.length_cons, hrt]; omega
        | false =>
          rw [if_neg Bool.false_ne_true, if_neg Bool.false_ne_true]
          rw [ih f2' rest (by omega) (by omega)]

theorem stripRTAux_no_r :
    ∀ (fuel : Nat) (t : List Char), t.length ≤ fuel →
      (∀ c ∈ t, c ≠ 'r') → stripRTAux fuel t = t := by
  intro fuel
  induction fuel with
  | zero =>
    intro t h _
    have ht : t = [] := List.length_eq_zero.mp (Nat.le_zero.mp h)
    subst ht
    rfl
  | succ f ih =>
    intro t h hall
    cases t with
    | nil => rfl
    | cons c rest =>
      have hc : c ≠ 'r' := hall c (List.mem_cons_self c rest)
      have hp : rtPat.isPrefixOf (c :: rest) = false := by
        cases hb : rtPat.isPrefixOf (c :: rest) with
        | false => rfl
        | true =>
          obtain ⟨t2, ht2⟩ := isPreOf_iff.mp hb
          rw [show rtPat = 'r' :: "efs/tags/".toList from rfl, List.cons_append] at ht2
          injection ht2 with h1 _
          exact absurd h1.symm hc
      simp only [stripRTAux]
      rw [if_neg (by rw [hp]; exact Bool.false_ne_true)]
      rw [List.length_cons] at h
      rw [ih rest (by omega) (fun x hx => hall x (List.mem_cons_of_mem c hx))]

theorem stripRTAux_append_hat :
    ∀ (fuel : Nat) (s : List Char), s.length + 3 ≤ fuel →
      stripRTAux fuel (s ++ hatL) = stripRTAux fuel s ++ hatL := by
  intro fuel
  induction fuel with
  | zero => intro s h; exact absurd h (by omega)
  | succ f ih =>
    intro s h
    cases s with
    | nil =>
      simp only [List.nil_append]
      rw [stripRTAux_no_r (f + 1) hatL (by simp at h; simp [hatL]; omega) (by decide)]
      rfl
    | cons c rest =>
      have hb := rtPat_isPrefixOf_append_hat (c :: rest)
      rw [List.cons_append] at hb
      rw [List.length_cons] at h
      rw [List.cons_append]
      simp only [stripRTAux]
      cases hp : rtPat.isPrefixOf (c :: rest) with
      | true =>
        rw [hp] at hb
        rw [if_pos hb, if_pos rfl]
        have h10 : rtPat.length ≤ (c :: rest).length :=
          (isPreOf_iff.mp hp).length_le
        have hdrop : (c :: (rest ++ hatL)).drop rtPat.length =
            (c :: rest).drop rtPat.length ++ hatL := by
          rw [← List.cons_append]
          exact List.drop_append_of_le_length h10
        rw [hdrop]
        apply ih
        have hrt : rtPat.length = 10 := rfl
        rw [List.length_cons, hrt] at h10
        rw [List.length_drop, List.length_cons, hrt]
        omega
      | false =>
        rw [hp] at hb
        rw [if_neg (by rw [hb]; exact Bool.false_ne_true), if_neg Bool.false_ne_true]
        rw [ih rest (by omega), List.cons_append]

theorem stripRT_append_hat (s : List Char) :
    stripRT (s ++ hatL) = stripRT s ++ hatL := by
  unfold stripRT
  have hl : (s ++ hatL).length = s.length + 3 := by simp [hatL]
  rw [hl, stripRTAux_append_hat (s.length + 3) s (by omega)]
  rw [stripRTAux_fuel (s.length + 3) s.length s (by omega) (Nat.le_refl _)]

theorem stripRTAux_step_match (f : Nat) (s : List Char)
    (hp : rtPat.isPrefixOf s = true) :
    stripRTAux (f + 1) s = stripRTAux f (s.drop rtPat.length) := by
  cases s with
  | nil =>
    rw [show rtPat.isPrefixOf ([] : List Char) = false from rfl] at hp
    cases hp
  | cons c rest =>
    simp only [stripRTAux]
    rw [if_pos hp]

theorem stripRT_rt_append (z : List Char) :
    stripRT (rtPat ++ z) = stripRT z := by
  unfold stripRT
  have hp : rtPat.isPrefixOf (rtPat ++ z) = true :=
    isPreOf_iff.mpr (List.prefix_append _ _)
  have hlen : (rtPat ++ z).length = z.length + 9 + 1 := by
    simp [rtPat]
  rw [hlen, stripRTAux_step_match _ _ hp, List.drop_left]
  exact stripRTAux_fuel (z.length + 9) z.length z (by omega) (Nat.le_refl _)

theorem stripHat_append (x : List Char) : stripHat (x ++ hatL) = x := by
  unfold stripHat
  have hs : hatL.isSuffixOf (x ++ hatL) = true :=
    List.isSuffixOf_iff_suffix.mpr ⟨x, rfl⟩
  rw [if_pos hs]
  have hl : (x ++ hatL).length - 3 = x.length := by simp [hatL]
  rw [hl, List.take_left]

/-! ### Computation of get_latest_tag on a known candidate list -/

theorem get_latest_tag_max (output : List Char) (tags : List (List Nat))
    (major : Option Nat) (v : List Nat)
    (h : collectTags output = Except.ok tags) (hne : tags ≠ [])
    (hmax : pyMax1 (if tags.filter (majorOk major) = [] then tags
      else tags.filter (majorOk major)) = some v) :
    get_latest_tag output major = Except.ok (some ('v' :: renderVersion v)) := by
  unfold get_latest_tag
  rw [h]
  simp only [if_neg hne]
  rw [hmax]

/-! ### Claims C1 and C2: numeric maximum and advisory major filter -/

/-- Claim C1: over every candidate list produced from a raw listing, the
resolver with no major filter returns the rendered maximum under the
numeric component order; on the worked example with tags v1.2.3, v1.10.0,
v2.0.0 it returns v2.0.0, and v1.10.0 compares above v1.2.3 numerically
(string order would put v1.2.3 higher). -/
theorem claim_c1_numeric_max :
    (∀ (output : List Char) (tags : List (List Nat)),
        collectTags output = Except.ok tags → tags ≠ [] →
        ∃ v, resolverMax tags v ∧
          get_latest_tag output none = Except.ok (some ('v' :: renderVersion v))) ∧
    get_latest_tag exListing none = Except.ok (some "v2.0.0".toList) ∧
    releaseLt [1, 2, 3] [1, 10, 0] = true := by
  refine ⟨?_, rfl, rfl⟩
  intro output tags h hne
  obtain ⟨v, hv⟩ := pyMax1_spec tags hne
  refine ⟨v, hv, ?_⟩
  apply get_latest_tag_max output tags none v h hne
  have hfilter : tags.filter (majorOk none) = tags :=
    List.filter_eq_self.mpr (fun a _ => rfl)
  rw [hfilter, if_neg hne]
  exact hv.1

/-- Witness for C1 at the worked example listing. -/
theorem claim_c1_witness :
    ∃ v, resolverMax exTags v ∧
      get_latest_tag exListing none = Except.ok (some ('v' :: renderVersion v)) :=
  claim_c1_numeric_max.1 exListing exTags rfl (by decide)

/-- Claim C2: with a provided major filter m over a nonempty candidate
list, the resolver returns the maximum of the matching candidates when
any exist, and otherwise falls back to the maximum of the whole candidate
list; on the worked example, filter 1 gives v1.10.0 and filter 5 (no
match) gives v2.0.0. -/
theorem claim_c2_major_filter :
    (∀ (output : List Char) (tags : List (List Nat)) (m : Nat),
        collectTags output = Except.ok tags → tags ≠ [] →
        ((∃ t ∈ tags, pyMajor t = m) →
          ∃ v, resolverMax (tags.filter (majorOk (some m))) v ∧
            get_latest_tag output (some m) = Except.ok (some ('v' :: renderVersion v))) ∧
        ((∀ t ∈ tags, pyMajor t ≠ m) →
          ∃ v, resolverMax tags v ∧
            get_latest_tag output (some m) = Except.ok (some ('v' :: renderVersion v)))) ∧
    get_latest_tag exListing (some 1) = Except.ok (some "v1.10.0".toList) ∧
    get_latest_tag exListing (some 5) = Except.ok (some "v2.0.0".toList) := by
  refine ⟨?_, rfl, rfl⟩
  intro output tags m h hne
  constructor
  · rintro ⟨t0, ht0, hmaj⟩
    have hmem : t0 ∈ tags.filter (majorOk (some m)) := by
      rw [List.mem_filter]
      exact ⟨ht0, by simp [majorOk, hmaj]⟩
    have hfne : tags.filter (majorOk (some m)) ≠ [] := List.ne_nil_of_mem hmem
    obtain ⟨v, hv⟩ := pyMax1_spec _ hfne
    refine ⟨v, hv, ?_⟩
    apply get_latest_tag_max output tags (some m) v h hne
    rw [if_neg hfne]
    exact hv.1
  · intro hall
    have hfe : tags.filter (majorOk (some m)) = [] := by
      apply List.filter_eq_nil_iff.mpr
      intro a ha
      simp only [majorOk, beq_iff_eq]
      exact hall a ha
    obtain ⟨v, hv⟩ := pyMax1_spec tags hne
    refine ⟨v, hv, ?_⟩
    apply get_latest_tag_max output tags (some m) v h hne
    rw [hfe, if_pos rfl]
    exact hv.1

/-- Witness for C2: the matching branch at filter 1 on the worked
example. -/
theorem claim_c2_witness :
    ∃ v, resolverMax (exTags.filter (majorOk (some 1))) v ∧
      get_latest_tag exListing (some 1) = Except.ok (some ('v' :: renderVersion v)) :=
  (claim_c2_major_filter.1 exListing exTags 1 rfl (by decide)).1 (by decide)

/-! ### Claim C3: transport failures abort the run before any write -/

/-- The run raised an uncaught exception: no ok value, hence no manifest
content is produced (the file write only happens on the ok path of
runMain, after the loop over all repositories). -/
def runFails (lr : List Char → Except PyErr (List Char)) (env : List Char) : Prop :=
  ∃ e, runMain lr env = Except.error e

/-- Claim C3: if the remote listing raises a transport error for any
configured repository, the whole run terminates with an uncaught error
and produces no manifest content. -/
theorem claim_c3_transport_fatal :
    ∀ (lr : List Char → Except PyErr (List Char)) (env repo : List Char),
      repo ∈ REPOS → lr repo = Except.error PyErr.transport →
      runFails lr env := by
  intro lr env repo hmem herr
  have hstep : step lr (extractMajor env) repo = Except.error PyErr.transport := by
    unfold step
    rw [herr]
  obtain ⟨e, he⟩ :=
    mapME_error_of_mem (step lr (extractMajor env)) REPOS repo hmem ⟨_, hstep⟩
  exact ⟨e, by unfold runMain; rw [he]⟩

/-- Remote listing that always fails with a transport error. -/
def lrFail : List Char → Except PyErr (List Char) := fun _ => Except.error PyErr.transport

/-- Witness for C3 with the always failing listing. -/
theorem claim_c3_witness : runFails lrFail [] :=
  claim_c3_transport_fatal lrFail [] "https://github.com/frappe/erpnext".toList
    (by decide) rfl

/-! ### Claim C5: no qualifying tag gives none, and the builder uses main -/

/-- Claim C5: when the listing yields no qualifying tag (empty listing or
every tag filtered out or unparsable), the resolver returns none, and the
loop in main then records the literal branch main for that repository. -/
theorem claim_c5_no_tags_fallback :
    ∀ (output : List Char) (major : Option Nat),
      collectTags output = Except.ok [] →
      get_latest_tag output major = Except.ok none ∧
      ∀ (lr : List Char → Except PyErr (List Char)) (repo : List Char),
        lr repo = Except.ok output →
        step lr major repo = Except.ok ⟨repo, mainChars⟩ := by
  intro output major h
  have hg : get_latest_tag output major = Except.ok none := by
    unfold get_latest_tag
    rw [h]
    rfl
  refine ⟨hg, ?_⟩
  intro lr repo hlr
  unfold step
  rw [hlr]
  simp only []
  rw [hg]
  rfl

/-- Witness for C5 on the empty listing. -/
theorem claim_c5_witness :
    get_latest_tag [] none = Except.ok none ∧
    step (fun _ => Except.ok []) none "https://github.com/frappe/erpnext".toList =
      Except.ok ⟨"https://github.com/frappe/erpnext".toList, mainChars⟩ :=
  ⟨(claim_c5_no_tags_fallback [] none rfl).1,
   (claim_c5_no_tags_fallback [] none rfl).2 _ _ rfl⟩

/-! ### Claim C6: one manifest entry per repository, in order -/

/-- Claim C6: a successful run produces exactly one entry per configured
repository, in configuration order, with each git_url field equal to the
repository identifier. -/
theorem claim_c6_manifest_order :
    ∀ (lr : List Char → Except PyErr (List Char)) (env : List Char)
      (apps : List AppEntry) (content : List Char),
      runMain lr env = Except.ok (apps, content) →
      apps.map AppEntry.git_url = REPOS := by
  intro lr env apps content h
  unfold runMain at h
  cases hm : mapME (step lr (extractMajor env)) REPOS with
  | error e => rw [hm] at h; cases h
  | ok apps2 =>
    rw [hm] at h
    injection h with hpair
    rw [Prod.mk.injEq] at hpair
    obtain ⟨h3, _⟩ := hpair
    subst h3
    exact mapME_step_git_url lr (extractMajor env) REPOS _ hm

/-- The manifest produced when every repository resolves to no tag. -/
def fallbackApps : List AppEntry := REPOS.map (fun r => ⟨r, mainChars⟩)

/-- Remote listing that always succeeds with an empty tag list. -/
def lrEmpty : List Char → Except PyErr (List Char) := fun _ => Except.ok []

/-- Witness for C6 with the empty listing run. -/
theorem claim_c6_witness : fallbackApps.map AppEntry.git_url = REPOS :=
  claim_c6_manifest_order lrEmpty [] fallbackApps
    (renderAppsJson fallbackApps ++ ['\n']) rfl

/-! ### Claim C9: reachability of the InvalidVersion branch -/

/-- The codepoint ranges of the Unicode decimal digit class (category Nd)
above ASCII, exactly the non ASCII characters the class \d of a Python
str pattern matches (enumerated from the re module). -/
def ndExtraRanges : List (Nat × Nat) :=
  [
  (1632, 1641), (1776, 1785), (1984, 1993), (2406, 2415), (2534, 2543),
  (2662, 2671), (2790, 2799), (2918, 2927), (3046, 3055), (3174, 3183),
  (3302, 3311), (3430, 3439), (3558, 3567), (3664, 3673), (3792, 3801),
  (3872, 3881), (4160, 4169), (4240, 4249), (6112, 6121), (6160, 6169),
  (6470, 6479), (6608, 6617), (6784, 6793), (6800, 6809), (6992, 7001),
  (7088, 7097), (7232, 7241), (7248, 7257), (42528, 42537), (43216,
  43225), (43264, 43273), (43472, 43481), (43504, 43513), (43600, 43609),
  (44016, 44025), (65296, 65305), (66720, 66729), (68912, 68921), (69734,
  69743), (69872, 69881), (69942, 69951), (70096, 70105), (70384, 70393),
  (70736, 70745), (70864, 70873), (71248, 71257), (71360, 71369), (71472,
  71481), (71904, 71913), (72016, 72025), (72784, 72793), (73040, 73049),
  (73120, 73129), (92768, 92777), (92864, 92873), (93008, 93017), (120782,
  120831), (123200, 123209), (123632, 123641), (125264, 125273), (130032,
  130041)
  ]

/-- Models the class \d of a Python str pattern faithfully: every Unicode
decimal digit, that is ASCII 0-9 together with the non ASCII decimal
digit ranges. -/
def pyRegexDigit (c : Char) : Bool :=
  c.isDigit || ndExtraRanges.any (fun p => p.1 ≤ c.toNat && c.toNat ≤ p.2)

/-- The faithful counterpart of matchNDN: the same anchored
digits-dot-digits-dot-digits shape with the full \d class. -/
def matchNDNPy (s : List Char) : Bool :=
  (!(s.takeWhile pyRegexDigit).isEmpty) &&
  ((s.dropWhile pyRegexDigit).headD ' ' == '.') &&
  (let s2 := (s.dropWhile pyRegexDigit).tail
   (!(s2.takeWhile pyRegexDigit).isEmpty) &&
   ((s2.dropWhile pyRegexDigit).headD ' ' == '.') &&
   (let s3 := (s2.dropWhile pyRegexDigit).tail
    (!s3.isEmpty) && s3.all pyRegexDigit))

/-- The faithful counterpart of tagPatternMatch: TAG_PATTERN.match with
\d as the full Unicode decimal digit class. -/
def tagPatternMatchPy (s : List Char) : Bool :=
  (s.headD ' ' == 'v') && matchNDNPy s.tail

/-- The tag v followed by the Arabic-Indic digits three, zero and zero
(U+0663 and U+0660) separated by dots: every digit is in the class \d of
the Python pattern, but none is in the ASCII release grammar of
packaging. -/
def cexTag : List Char :=
  ['v', Char.ofNat 1635, '.', Char.ofNat 1632, '.', Char.ofNat 1632]

theorem pyRegexDigit_ascii_isDigit (c : Char) (hc : c.toNat < 128)
    (h : pyRegexDigit c = true) : c.isDigit = true := by
  unfold pyRegexDigit at h
  rw [Bool.or_eq_true] at h
  rcases h with h1 | h1
  · exact h1
  · exfalso
    obtain ⟨p, hp, hcond⟩ := List.any_eq_true.mp h1
    have hlow : ∀ q ∈ ndExtraRanges, 128 ≤ q.1 := by decide
    have hlow' := hlow p hp
    simp only [Bool.and_eq_true, decide_eq_true_eq] at hcond
    omega

theorem takeWhile_append_stop {p : Char → Bool} :
    ∀ (xs : List Char) (y : Char) (ys : List Char),
      (∀ c ∈ xs, p c = true) → p y = false →
      (xs ++ y :: ys).takeWhile p = xs ∧ (xs ++ y :: ys).dropWhile p = y :: ys := by
  intro xs
  induction xs with
  | nil =>
    intro y ys _ hy
    constructor
    · simp [List.takeWhile_cons, hy]
    · simp [List.dropWhile_cons, hy]
  | cons x xs ih =>
    intro y ys hall hy
    have hx : p x = true := hall x (List.mem_cons_self x xs)
    have hih := ih y ys (fun c hc => hall c (List.mem_cons_of_mem x hc)) hy
    constructor
    · simp [List.takeWhile_cons, hx, hih.1]
    · simp [List.dropWhile_cons, hx, hih.2]

theorem matchNDNPy_structure {s : List Char} (h : matchNDNPy s = true) :
    ∃ d1 d2 d3 : List Char, s = d1 ++ '.' :: (d2 ++ '.' :: d3) ∧
      d1 ≠ [] ∧ d2 ≠ [] ∧ d3 ≠ [] ∧
      d1.all pyRegexDigit = true ∧ d2.all pyRegexDigit = true ∧
      d3.all pyRegexDigit = true := by
  unfold matchNDNPy at h
  simp only [Bool.and_eq_true, beq_iff_eq, Bool.not_eq_true', List.isEmpty_eq_false] at h
  obtain ⟨⟨h1, h2⟩, ⟨h3, h4⟩, h5, h6⟩ := h
  set R := s.dropWhile pyRegexDigit with hR
  set t2 := R.tail with ht2
  set R2 := t2.dropWhile pyRegexDigit with hR2
  set t3 := R2.tail with ht3
  have e1 : R = '.' :: t2 := by
    cases hc : R with
    | nil => rw [hc] at h2; exact absurd h2 (by decide)
    | cons a t => rw [hc] at h2; simp only [List.headD_cons] at h2; rw [h2, ht2, hc]; rfl
  have e2 : R2 = '.' :: t3 := by
    cases hc : R2 with
    | nil => rw [hc] at h4; exact absurd h4 (by decide)
    | cons a t => rw [hc] at h4; simp only [List.headD_cons] at h4; rw [h4, ht3, hc]; rfl
  refine ⟨s.takeWhile pyRegexDigit, t2.takeWhile pyRegexDigit, t3,
    ?_, h1, h3, h5, ?_, ?_, h6⟩
  · have k2 : t2 = t2.takeWhile pyRegexDigit ++ '.' :: t3 := by
      conv_lhs => rw [← List.takeWhile_append_dropWhile (p := pyRegexDigit) (l := t2)]
      rw [← hR2, e2]
    calc s = s.takeWhile pyRegexDigit ++ R := by
            rw [hR]; exact (List.takeWhile_append_dropWhile pyRegexDigit s).symm
      _ = s.takeWhile pyRegexDigit ++ '.' :: t2 := by rw [e1]
      _ = s.takeWhile pyRegexDigit ++ '.' :: (t2.takeWhile pyRegexDigit ++ '.' :: t3) := by
            rw [← k2]
  · exact List.all_eq_true.mpr fun x hx => List.mem_takeWhile_imp hx
  · exact List.all_eq_true.mpr fun x hx => List.mem_takeWhile_imp hx

theorem matchNDN_of_parts {d1 d2 d3 : List Char}
    (h1 : d1 ≠ []) (h2 : d2 ≠ []) (h3 : d3 ≠ [])
    (ha1 : d1.all Char.isDigit = true) (ha2 : d2.all Char.isDigit = true)
    (ha3 : d3.all Char.isDigit = true) :
    matchNDN (d1 ++ '.' :: (d2 ++ '.' :: d3)) = true := by
  have t1 := takeWhile_append_stop d1 '.' (d2 ++ '.' :: d3)
    (fun c hc => List.all_eq_true.mp ha1 c hc) (by decide)
  have t2 := takeWhile_append_stop d2 '.' d3
    (fun c hc => List.all_eq_true.mp ha2 c hc) (by decide)
  unfold matchNDN
  rw [t1.1, t1.2]
  simp only [List.tail_cons, List.headD_cons]
  rw [t2.1, t2.2]
  simp only [List.tail_cons, List.headD_cons]
  simp [List.isEmpty_eq_false, h1, h2, h3, ha3]

theorem tagPatternMatch_of_py_ascii {tag : List Char}
    (h : tagPatternMatchPy tag = true) (hascii : ∀ c ∈ tag, c.toNat < 128) :
    tagPatternMatch tag = true := by
  unfold tagPatternMatchPy at h
  simp only [Bool.and_eq_true, beq_iff_eq] at h
  obtain ⟨hv, hm⟩ := h
  have htc : tag = 'v' :: tag.tail := by
    cases tag with
    | nil => exact absurd hv (by decide)
    | cons a t => simp only [List.headD_cons] at hv; rw [hv]; rfl
  obtain ⟨d1, d2, d3, hs, h1, h2, h3, ha1, ha2, ha3⟩ := matchNDNPy_structure hm
  have hasciiT : ∀ c ∈ tag.tail, c.toNat < 128 := by
    intro c hc
    exact hascii c (by rw [htc]; exact List.mem_cons_of_mem _ hc)
  have conv : ∀ (d : List Char), d.all pyRegexDigit = true →
      (∀ c ∈ d, c ∈ tag.tail) → d.all Char.isDigit = true := by
    intro d hall hmem
    apply List.all_eq_true.mpr
    intro c hc
    exact pyRegexDigit_ascii_isDigit c (hasciiT c (hmem c hc))
      (List.all_eq_true.mp hall c hc)
  have m1 : ∀ c ∈ d1, c ∈ tag.tail := by
    intro c hc
    rw [hs]
    exact List.mem_append.mpr (Or.inl hc)
  have m2 : ∀ c ∈ d2, c ∈ tag.tail := by
    intro c hc
    rw [hs]
    exact List.mem_append.mpr (Or.inr (List.mem_cons_of_mem _
      (List.mem_append.mpr (Or.inl hc))))
  have m3 : ∀ c ∈ d3, c ∈ tag.tail := by
    intro c hc
    rw [hs]
    exact List.mem_append.mpr (Or.inr (List.mem_cons_of_mem _
      (List.mem_append.mpr (Or.inr (List.mem_cons_of_mem _ hc)))))
  unfold tagPatternMatch
  simp only [Bool.and_eq_true, beq_iff_eq]
  constructor
  · rw [htc]; rfl
  · rw [hs]
    exact matchNDN_of_parts h1 h2 h3 (conv d1 ha1 m1) (conv d2 ha2 m2) (conv d3 ha3 m3)

/-- Counterexample to claim C9 as stated: the class \d of the Python str
pattern matches every Unicode decimal digit while the packaging release
grammar is ASCII only, so the tag of Arabic-Indic digits passes
TAG_PATTERN.match and still fails the version parse, landing in the
InvalidVersion handler: the handler is reachable. -/
theorem claim_c9_counterexample :
    tagPatternMatchPy cexTag = true ∧
    parseRelease (pyLstripV cexTag) = none :=
  ⟨by decide, by decide⟩

/-- Claim C9 as amended: the InvalidVersion handler is unreachable for
ASCII tags: a tag accepted by the faithful TAG_PATTERN whose characters
are all ASCII always parses after lstrip of the leading v, so the
discard branch fires only for pattern-accepted tags that contain non
ASCII Unicode decimal digits. -/
theorem claim_c9_amended :
    ∀ tag : List Char, tagPatternMatchPy tag = true →
      (∀ c ∈ tag, c.toNat < 128) →
      (parseRelease (pyLstripV tag)).isSome = true := by
  intro tag h hascii
  exact parseRelease_some_of_pattern (tagPatternMatch_of_py_ascii h hascii)

/-- Witness for the amended C9 at v1.2.3. -/
theorem claim_c9_amended_witness :
    (parseRelease (pyLstripV "v1.2.3".toList)).isSome = true :=
  claim_c9_amended "v1.2.3".toList (by decide) (by decide)

/-! ### Claim C10: malformed listing lines raise ValueError -/

/-- Claim C10: a listing line with no tab or more than one tab makes
get_latest_tag raise an uncaught ValueError instead of skipping the line
or reporting no tags. -/
theorem claim_c10_line_unpacking :
    ∀ (output : List Char) (major : Option Nat) (line : List Char),
      line ∈ pySplitlinesLF output → line.count '\t' ≠ 1 →
      get_latest_tag output major = Except.error PyErr.valueError := by
  intro output major line hmem hbad
  have h1 : lineRef line = Except.error PyErr.valueError := lineRef_bad_tabs hbad
  have h2 : mapME lineRef (pySplitlinesLF output) = Except.error PyErr.valueError :=
    mapME_lineRef_error _ line hmem h1
  have h3 : collectTags output = Except.error PyErr.valueError := by
    unfold collectTags
    rw [h2]
  unfold get_latest_tag
  rw [h3]

/-- Witness for C10 at a tabless line. -/
theorem claim_c10_witness :
    get_latest_tag "abc".toList none = Except.error PyErr.valueError :=
  claim_c10_line_unpacking "abc".toList none "abc".toList (by decide) (by decide)

/-! ### Claim C4: candidate criterion, corrected for replace-all -/

/-- Counterexample to claim C4 as stated: the source removes every
occurrence of refs/tags/ (str.replace), not only a leading prefix, so the
ref refs/tags/refs/tags/v1.0.0 becomes the candidate v1.0.0 although the
prefix stripping criterion of the claim rejects it. -/
theorem claim_c4_counterexample :
    (candidateOfRef "refs/tags/refs/tags/v1.0.0".toList).isSome = true ∧
    claimC4Criterion "refs/tags/refs/tags/v1.0.0".toList = false :=
  ⟨by decide, by decide⟩

/-- Claim C4 as amended: a ref contributes a candidate exactly when, after
removing every occurrence of refs/tags/ and then one trailing dereference
suffix, the remainder matches the anchored pattern v digits dot digits dot
digits; in particular patterns with suffixes, labels, missing or
non numeric components are excluded. -/
theorem claim_c4_amended :
    ∀ ref : List Char, (candidateOfRef ref).isSome = true ↔
      tagPatternMatch (stripHat (stripRT ref)) = true := by
  intro ref
  simp only [candidateOfRef]
  by_cases h : tagPatternMatch (stripHat (stripRT ref)) = true
  · simp [h, parseRelease_some_of_pattern h]
  · simp [h]

/-- Witness for the amended C4 at a plain tag ref. -/
theorem claim_c4_amended_witness :
    (candidateOfRef "refs/tags/v1.2.3".toList).isSome = true ↔
      tagPatternMatch (stripHat (stripRT "refs/tags/v1.2.3".toList)) = true :=
  claim_c4_amended "refs/tags/v1.2.3".toList

/-! ### Claim C7: dereference suffix stripping, corrected for one strip -/

/-- Counterexample to claim C7 as stated: only one dereference suffix is
stripped, so for the name v1.2.3 followed by a dereference suffix, the ref
with a second suffix appended is not treated identically to the ref
without it. -/
theorem claim_c7_counterexample :
    candidateOfRef ("refs/tags/v1.2.3^\x7b\x7d^\x7b\x7d".toList) ≠
      candidateOfRef ("refs/tags/v1.2.3^\x7b\x7d".toList) := by
  decide

/-- Claim C7 as amended: for every tag name whose normalized form does not
itself end in a dereference suffix, the ref with the suffix appended
yields exactly the same candidate as the ref without it: the suffix is
stripped before pattern matching and parsing. -/
theorem claim_c7_amended :
    ∀ n : List Char, hatL.isSuffixOf (stripRT n) = false →
      candidateOfRef (rtPat ++ n ++ hatL) = candidateOfRef (rtPat ++ n) := by
  intro n h
  have h1 : stripRT (rtPat ++ n ++ hatL) = stripRT n ++ hatL := by
    rw [List.append_assoc, stripRT_rt_append, stripRT_append_hat]
  have h2 : stripRT (rtPat ++ n) = stripRT n := stripRT_rt_append n
  have h3 : stripHat (stripRT n) = stripRT n := by
    unfold stripHat
    rw [if_neg (by rw [h]; exact Bool.false_ne_true)]
  simp only [candidateOfRef]
  rw [h1, h2, stripHat_append, h3]

/-- Witness for the amended C7 at the tag v9.9.9. -/
theorem claim_c7_witness :
    candidateOfRef (rtPat ++ "v9.9.9".toList ++ hatL) =
      candidateOfRef (rtPat ++ "v9.9.9".toList) :=
  claim_c7_amended "v9.9.9".toList (by decide)

/-! ### Claim C8: the serialized manifest -/

/-- The exact apps.json text of a run in which every repository resolves
to the fallback branch. -/
def expectedFallbackJson : String :=
  "[\n  \x7b\n    \"git_url\": \"https://github.com/frappe/erpnext\",\n    \"branch\": \"main\"\n  \x7d,\n  \x7b\n    \"git_url\": \"https://github.com/frappe/hrms\",\n    \"branch\": \"main\"\n  \x7d,\n  \x7b\n    \"git_url\": \"https://github.com/frappe/crm\",\n    \"branch\": \"main\"\n  \x7d,\n  \x7b\n    \"git_url\": \"https://github.com/frappe/helpdesk\",\n    \"branch\": \"main\"\n  \x7d,\n  \x7b\n    \"git_url\": \"https://github.com/frappe/drive\",\n    \"branch\": \"main\"\n  \x7d,\n  \x7b\n    \"git_url\": \"https://github.com/frappe/insights\",\n    \"branch\": \"main\"\n  \x7d,\n  \x7b\n    \"git_url\": \"https://github.com/frappe/builder\",\n    \"branch\": \"main\"\n  \x7d,\n  \x7b\n    \"git_url\": \"https://github.com/frappe/lms\",\n    \"branch\": \"main\"\n  \x7d\n]\n"

theorem digitChar_lt128 {n : Nat} (h : n < 16) : (Nat.digitChar n).toNat < 128 := by
  interval_cases n <;> decide

theorem hex4_ascii {n : Nat} {c : Char} (h : c ∈ hex4 n) : c.toNat < 128 := by
  unfold hex4 at h
  simp only [List.mem_cons, List.not_mem_nil, or_false] at h
  rcases h with rfl | rfl | rfl | rfl <;>
    exact digitChar_lt128 (Nat.mod_lt _ (by norm_num))

theorem jsonEscapeChar_ascii (c0 c : Char) (h : c ∈ jsonEscapeChar c0) :
    c.toNat < 128 := by
  unfold jsonEscapeChar at h
  split_ifs at h with h1 h2 h3 h4 h5 h6 h7 h8 h9
  · fin_cases h <;> decide
  · fin_cases h <;> decide
  · fin_cases h <;> decide
  · fin_cases h <;> decide
  · fin_cases h <;> decide
  · fin_cases h <;> decide
  · fin_cases h <;> decide
  · have hc : c = c0 := by simpa using h
    subst hc
    simp only [Bool.and_eq_true, decide_eq_true_eq] at h8
    omega
  · rcases List.mem_cons.mp h with rfl | hh
    · decide
    rcases List.mem_cons.mp hh with rfl | hh2
    · decide
    exact hex4_ascii hh2
  · rcases List.mem_cons.mp h with rfl | hh
    · decide
    rcases List.mem_cons.mp hh with rfl | hh2
    · decide
    rcases List.mem_append.mp hh2 with hh3 | hh3
    · exact hex4_ascii hh3
    rcases List.mem_cons.mp hh3 with rfl | hh4
    · decide
    rcases List.mem_cons.mp hh4 with rfl | hh5
    · decide
    exact hex4_ascii hh5

theorem jsonStringLit_ascii (s : List Char) : ∀ c ∈ jsonStringLit s, c.toNat < 128 := by
  intro c h
  unfold jsonStringLit at h
  rcases List.mem_cons.mp h with rfl | h2
  · decide
  rcases List.mem_append.mp h2 with h3 | h3
  · obtain ⟨l, hl, hcl⟩ := List.mem_flatten.mp h3
    obtain ⟨c0, _, rfl⟩ := List.mem_map.mp hl
    exact jsonEscapeChar_ascii c0 c hcl
  · have hc : c = '"' := by simpa using h3
    subst hc
    decide

theorem joinSep_ascii (sep : List Char) (hsep : ∀ c ∈ sep, c.toNat < 128) :
    ∀ (ls : List (List Char)), (∀ l ∈ ls, ∀ c ∈ l, c.toNat < 128) →
      ∀ c ∈ joinSep sep ls, c.toNat < 128 := by
  intro ls
  induction ls with
  | nil =>
    intro _ c h
    simp [joinSep] at h
  | cons x rest ih =>
    intro hall c h
    cases rest with
    | nil =>
      exact hall x (List.mem_cons_self x []) c (by simpa [joinSep] using h)
    | cons y rest2 =>
      rw [show joinSep sep (x :: y :: rest2) =
        x ++ sep ++ joinSep sep (y :: rest2) from rfl] at h
      rcases List.mem_append.mp h with h1 | h1
      · rcases List.mem_append.mp h1 with h2 | h2
        · exact hall x (List.mem_cons_self x (y :: rest2)) c h2
        · exact hsep c h2
      · exact ih (fun l hl => hall l (List.mem_cons_of_mem x hl)) c h1

theorem renderEntryJson_ascii (e : AppEntry) : ∀ c ∈ renderEntryJson e, c.toNat < 128 := by
  intro c h
  unfold renderEntryJson at h
  rcases List.mem_append.mp h with h1 | h1
  · rcases List.mem_append.mp h1 with h2 | h2
    · rcases List.mem_append.mp h2 with h3 | h3
      · rcases List.mem_append.mp h3 with h4 | h4
        · exact (by decide : ∀ x ∈ "  \x7b\n    \"git_url\": ".toList, x.toNat < 128) c h4
        · exact jsonStringLit_ascii e.git_url c h4
      · exact (by decide : ∀ x ∈ ",\n    \"branch\": ".toList, x.toNat < 128) c h3
    · exact jsonStringLit_ascii e.branch c h2
  · exact (by decide : ∀ x ∈ "\n  \x7d".toList, x.toNat < 128) c h1

theorem renderAppsJson_ascii (apps : List AppEntry) :
    ∀ c ∈ renderAppsJson apps, c.toNat < 128 := by
  cases apps with
  | nil =>
    intro c h
    exact (by decide : ∀ x ∈ "[]".toList, x.toNat < 128) c h
  | cons a rest =>
    intro c h
    rw [show renderAppsJson (a :: rest) = "[\n".toList ++
      joinSep (",\n".toList) ((a :: rest).map renderEntryJson) ++ "\n]".toList
      from rfl] at h
    rcases List.mem_append.mp h with h1 | h1
    · rcases List.mem_append.mp h1 with h2 | h2
      · exact (by decide : ∀ x ∈ "[\n".toList, x.toNat < 128) c h2
      · refine joinSep_ascii (",\n".toList) (by decide) _ ?_ c h2
        intro l hl c2 hc2
        obtain ⟨e, _, rfl⟩ := List.mem_map.mp hl
        exact renderEntryJson_ascii e c2 hc2
    · exact (by decide : ∀ x ∈ "\n]".toList, x.toNat < 128) c h1

/-- Claim C8: on every successful run the produced apps.json content is
exactly the json.dumps rendering of the entry list with 2 space
indentation followed by one trailing newline, the content ends with a
newline, and every character is ASCII (so the UTF-8 bytes coincide with
the character codes); the concrete conjunct pins the whole byte-exact
text for a run in which every repository falls back to main.  The content
is computed only on the ok path of runMain, after the loop over all
repositories, and replaces the previous file contents wholesale. -/
theorem claim_c8_output_format :
    (∀ (lr : List Char → Except PyErr (List Char)) (env : List Char)
        (apps : List AppEntry) (content : List Char),
        runMain lr env = Except.ok (apps, content) →
        content = renderAppsJson apps ++ ['\n'] ∧
        content.getLast? = some '\n' ∧
        ∀ c ∈ content, c.toNat < 128) ∧
    runMain lrEmpty [] = Except.ok (fallbackApps, expectedFallbackJson.toList) := by
  constructor
  · intro lr env apps content h
    unfold runMain at h
    cases hm : mapME (step lr (extractMajor env)) REPOS with
    | error e => rw [hm] at h; cases h
    | ok apps2 =>
      rw [hm] at h
      injection h with hpair
      rw [Prod.mk.injEq] at hpair
      obtain ⟨h3, h4⟩ := hpair
      subst h3
      subst h4
      refine ⟨rfl, List.getLast?_concat _, ?_⟩
      intro c hc
      rcases List.mem_append.mp hc with h5 | h5
      · exact renderAppsJson_ascii _ c h5
      · have hc' : c = '\n' := by simpa using h5
        subst hc'
        decide
  · rfl

/-- Witness for C8 at the all-fallback run. -/
theorem claim_c8_witness :
    expectedFallbackJson.toList = renderAppsJson fallbackApps ++ ['\n'] ∧
    expectedFallbackJson.toList.getLast? = some '\n' ∧
    ∀ c ∈ expectedFallbackJson.toList, c.toNat < 128 :=
  claim_c8_output_format.1 lrEmpty [] fallbackApps expectedFallbackJson.toList
    claim_c8_output_format.2
